import Mathlib

/-!
Formal model of the core of the GloVe word-vector notebook
(`glove-word-vectors.ipynb`): the vector table built by
`load_word_vectors` (a word-to-index dictionary `wv_dict` plus a parallel
vector array `wv_arr`), the lookup `get_word`, the brute-force
nearest-neighbor scan `closest`, and the `analogy` function.

Modelling choices:
* vector components are exact integers, so every definition is
  kernel-executable; every claim below concerns ordering, filtering,
  lengths and error propagation, all of which are insensitive to the
  scalar type.  `torch.dist(d, v)` (Euclidean, p = 2) is `Real.sqrt` of
  the sum of squared componentwise differences.  The scan stores the
  integer *squared* distance as the sort key; since `Real.sqrt` is
  strictly monotone on the nonnegative reals, sorting and tie structure by
  squared distance coincide with sorting by `torch.dist` itself, and the
  correspondence is stated through `torchDist` in the theorems.
* Python runtime failures are explicit: `KeyError` (the spec's
  `UnknownWordError`), `IndexError`, and the torch size-mismatch failure
  (the spec's `DimensionMismatchError`) propagate through `Except`.
* Python's `sorted(..., key=lambda t: t[1])` is a stable ascending sort by
  the second component; every stable sort of a list under the same total
  preorder produces the same output list, so it is embedded as
  `List.insertionSort distLe` (stability is proved below as
  `filter_insertionSort`).
* Python slicing `l[:n]` accepts negative `n`; `pySlice` reproduces it on
  arbitrary integers.
-/

namespace Glove

/-- Failure outcomes of the notebook code: Python `KeyError` (the spec's
`UnknownWordError`), Python `IndexError` on the vector array, and the torch
size-mismatch failure (the spec's `DimensionMismatchError`). -/
inductive PyError where
  | keyError (w : String)
  | indexError
  | dimMismatch
deriving DecidableEq, Repr

instance {ε α : Type} [DecidableEq ε] [DecidableEq α] : DecidableEq (Except ε α)
  | .error e, .error f =>
    if h : e = f then .isTrue (by rw [h])
    else .isFalse (by intro hc; cases hc; exact h rfl)
  | .error _, .ok _ => .isFalse (by intro hc; cases hc)
  | .ok _, .error _ => .isFalse (by intro hc; cases hc)
  | .ok a, .ok b =>
    if h : a = b then .isTrue (by rw [h])
    else .isFalse (by intro hc; cases hc; exact h rfl)

/-- The loaded data of `load_word_vectors`: `wv_dict` is the word-to-index
dictionary (an association list in insertion order, mirroring Python dict
iteration order) and `wv_arr` the parallel array of vectors. -/
structure WordVectors where
  wv_dict : List (String × Nat)
  wv_arr : List (List ℤ)

/-- Number of distinct words (the spec's `table.size()`). -/
def WordVectors.size (t : WordVectors) : Nat := t.wv_dict.length

/-- Invariant established by loading: dictionary keys are distinct (Python
dict), every stored index points into `wv_arr`, and every vector has exactly
`D` components. -/
def WellFormed (t : WordVectors) (D : Nat) : Prop :=
  (t.wv_dict.map Prod.fst).Nodup ∧
    (∀ p ∈ t.wv_dict, p.2 < t.wv_arr.length) ∧
    (∀ v ∈ t.wv_arr, v.length = D)

instance (t : WordVectors) (D : Nat) : Decidable (WellFormed t D) := by
  unfold WellFormed; infer_instance

/-- Shallow embedding of `def get_word(word): return wv_arr[wv_dict[word]]`.
Dictionary indexing raises `KeyError` on an absent word; array indexing
raises `IndexError` when out of bounds. -/
def get_word (t : WordVectors) (w : String) : Except PyError (List ℤ) :=
  match List.lookup w t.wv_dict with
  | none => .error (.keyError w)
  | some i =>
    match t.wv_arr.get? i with
    | none => .error .indexError
    | some v => .ok v

/-- Sum of squared componentwise differences of two vectors. -/
def sumSqDiff (a b : List ℤ) : ℤ :=
  (List.zipWith (fun x y => (x - y) * (x - y)) a b).sum

/-- Sort key of `torch.dist(a, b)`: the sum of squared componentwise
differences (the squared Euclidean distance).  Mismatched sizes fail as
torch elementwise ops on incompatible shapes do. -/
def distSq (a b : List ℤ) : Except PyError ℤ :=
  if a.length = b.length then .ok (sumSqDiff a b)
  else .error .dimMismatch

/-- The actual value of `torch.dist(a, b)` with the default `p = 2`: the
Euclidean distance `sqrt (sum_i (a_i - b_i)^2)`. -/
noncomputable def torchDist (a b : List ℤ) : ℝ :=
  Real.sqrt ((sumSqDiff a b : ℤ) : ℝ)

/-- The full-vocabulary scan
`all_dists = [(w, torch.dist(d, get_word(w))) for w in wv_dict]` of
`closest`, recording each squared distance as the sort key. -/
def all_dists (t : WordVectors) (d : List ℤ) : Except PyError (List (String × ℤ)) :=
  t.wv_dict.mapM fun p => do
    let v ← get_word t p.1
    let s ← distSq d v
    pure (p.1, s)

/-- Python list slicing `l[:n]` for an arbitrary integer `n`: the first `n`
elements when `n ≥ 0`, all but the last `-n` elements when `n < 0`. -/
def pySlice {α : Type} (n : ℤ) (l : List α) : List α :=
  if 0 ≤ n then l.take n.toNat else l.take (l.length - (-n).toNat)

/-- The comparison of `sorted(all_dists, key=lambda t: t[1])`: ascending by
the distance component. -/
def distLe (a b : String × ℤ) : Prop := a.2 ≤ b.2

instance : DecidableRel distLe := fun a b => inferInstanceAs (Decidable (a.2 ≤ b.2))

instance : IsTotal (String × ℤ) distLe := ⟨fun a b => le_total a.2 b.2⟩

instance : IsTrans (String × ℤ) distLe := ⟨fun _ _ _ h₁ h₂ => le_trans h₁ h₂⟩

/-- Shallow embedding of
`def closest(d, n=10): all_dists = [...]; return sorted(all_dists, key=lambda t: t[1])[:n]`.
Python's `sorted` is a stable ascending sort, embedded as
`List.insertionSort distLe`; `n` ranges over ℤ because Python slicing
accepts negative bounds. -/
def closest (t : WordVectors) (d : List ℤ) (n : ℤ) : Except PyError (List (String × ℤ)) :=
  (all_dists t d).map fun l => pySlice n (List.insertionSort distLe l)

/-- Torch elementwise subtraction on equal-size vectors. -/
def vecSub (a b : List ℤ) : Except PyError (List ℤ) :=
  if a.length = b.length then .ok (List.zipWith (fun x y => x - y) a b)
  else .error .dimMismatch

/-- Torch elementwise addition on equal-size vectors. -/
def vecAdd (a b : List ℤ) : Except PyError (List ℤ) :=
  if a.length = b.length then .ok (List.zipWith (fun x y => x + y) a b)
  else .error .dimMismatch

/-- The query vector `get_word(w2) - get_word(w1) + get_word(w3)` built by
`analogy`, in Python's left-to-right evaluation order. -/
def analogyQuery (t : WordVectors) (w1 w2 w3 : String) : Except PyError (List ℤ) := do
  let v2 ← get_word t w2
  let v1 ← get_word t w1
  let u ← vecSub v2 v1
  let v3 ← get_word t w3
  vecAdd u v3

/-- Shallow embedding of `analogy(w1, w2, w3, n=5, filter_given=True)`:
`closest_words = closest(get_word(w2) - get_word(w1) + get_word(w3))` — the
call uses `closest`'s default `n = 10` regardless of the requested `n` —
optionally filters out the three given words, then produces
`closest_words[:n]` (the sequence handed to `print_tuples`). -/
def analogy (t : WordVectors) (w1 w2 w3 : String) (n : ℤ) (filter_given : Bool) :
    Except PyError (List (String × ℤ)) := do
  let q ← analogyQuery t w1 w2 w3
  let cw ← closest t q 10
  let fw := if filter_given then
      cw.filter (fun p => !(p.1 == w1 || p.1 == w2 || p.1 == w3))
    else cw
  pure (pySlice n fw)

/-- Entry the scan of `closest` produces for the dictionary pair `p`: the
word paired with the squared distance from the query `d` to the vector
stored at `p`'s index (used to state what `all_dists` computes on a
well-formed table). -/
def scanEntry (t : WordVectors) (d : List ℤ) (p : String × Nat) : String × ℤ :=
  (p.1, sumSqDiff d (t.wv_arr.getD p.2 []))

/-- State-passing form of `get_word`: the notebook functions only read the
globals `wv_dict`/`wv_arr`, so the state component is returned unchanged. -/
def runGetWord (st : WordVectors) (w : String) :
    Except PyError (List ℤ) × WordVectors :=
  (get_word st w, st)

/-- State-passing form of `closest`. -/
def runClosest (st : WordVectors) (d : List ℤ) (n : ℤ) :
    Except PyError (List (String × ℤ)) × WordVectors :=
  (closest st d n, st)

/-- State-passing form of `analogy`. -/
def runAnalogy (st : WordVectors) (w1 w2 w3 : String) (n : ℤ) (fg : Bool) :
    Except PyError (List (String × ℤ)) × WordVectors :=
  (analogy st w1 w2 w3 n fg, st)

/-- Fixture table: four words on a line, dimension 1. -/
def tblA : WordVectors :=
  ⟨[("a", 0), ("b", 1), ("c", 2), ("d", 3)], [[0], [1], [2], [3]]⟩

/-- Fixture table with two distinct words sharing one stored vector. -/
def tblDup : WordVectors :=
  ⟨[("a", 0), ("b", 1)], [[0], [0]]⟩

/-- Fixture table with eleven words on a line, dimension 1. -/
def tblK : WordVectors :=
  ⟨[("a", 0), ("b", 1), ("c", 2), ("d", 3), ("e", 4), ("f", 5), ("g", 6),
      ("h", 7), ("i", 8), ("j", 9), ("k", 10)],
    [[1], [2], [3], [4], [5], [6], [7], [8], [9], [10], [11]]⟩

/-! Helper lemmas about dictionaries, the scan, slicing and the sort. -/

theorem lookup_eq_some_of_nodup :
    ∀ (l : List (String × Nat)), (l.map Prod.fst).Nodup →
      ∀ {w : String} {i : Nat}, (w, i) ∈ l → List.lookup w l = some i
  | [], _, _, _, h => absurd h (List.not_mem_nil _)
  | (a, j) :: l, hnd, w, i, hmem => by
    rw [List.map_cons] at hnd
    rcases List.mem_cons.mp hmem with heq | hmem'
    · cases heq
      simp [List.lookup]
    · have hwa : w ≠ a := by
        intro h
        exact (List.nodup_cons.mp hnd).1 (List.mem_map.mpr ⟨(w, i), hmem', h⟩)
      have hbeq : (w == a) = false := beq_false_of_ne hwa
      simp [List.lookup, hbeq]
      exact lookup_eq_some_of_nodup l (List.nodup_cons.mp hnd).2 hmem'

theorem lookup_eq_none_of_not_mem :
    ∀ (l : List (String × Nat)) {w : String}, w ∉ l.map Prod.fst →
      List.lookup w l = none
  | [], _, _ => rfl
  | (a, j) :: l, w, hw => by
    have hwa : w ≠ a := fun h => hw (by rw [List.map_cons]; exact List.mem_cons.mpr (Or.inl h))
    have hbeq : (w == a) = false := beq_false_of_ne hwa
    simp [List.lookup, hbeq]
    intro a' b hb h
    exact hw (by
      rw [List.map_cons]
      exact List.mem_cons.mpr (Or.inr (List.mem_map.mpr ⟨(a', b), hb, h.symm⟩)))

theorem mapM_ok {α β : Type} (f : α → Except PyError β) (g : α → β) :
    ∀ l : List α, (∀ x ∈ l, f x = .ok (g x)) → l.mapM f = .ok (l.map g)
  | [], _ => rfl
  | x :: l, h => by
    rw [List.mapM_cons, h x (List.mem_cons_self x l),
      mapM_ok f g l fun y hy => h y (List.mem_cons_of_mem x hy)]
    rfl

theorem mapM_error {α β : Type} (f : α → Except PyError β) (x : α) (l : List α)
    (e : PyError) (hx : f x = .error e) : (x :: l).mapM f = .error e := by
  rw [List.mapM_cons, hx]
  rfl

theorem sumSqDiff_nonneg : ∀ a b : List ℤ, 0 ≤ sumSqDiff a b
  | [], _ => le_refl 0
  | _ :: _, [] => le_refl 0
  | x :: a, y :: b => by
    have h1 : 0 ≤ (x - y) * (x - y) := mul_self_nonneg _
    have h2 : 0 ≤ sumSqDiff a b := sumSqDiff_nonneg a b
    simpa [sumSqDiff] using add_nonneg h1 h2

theorem sumSqDiff_self : ∀ a : List ℤ, sumSqDiff a a = 0
  | [] => rfl
  | x :: a => by simp [sumSqDiff, sumSqDiff_self a]

theorem sumSqDiff_eq_zero_iff :
    ∀ a b : List ℤ, a.length = b.length → (sumSqDiff a b = 0 ↔ a = b)
  | [], [], _ => by simp [sumSqDiff]
  | [], _ :: _, h => by simp at h
  | _ :: _, [], h => by simp at h
  | x :: a, y :: b, h => by
    have hlen : a.length = b.length := by simpa using h
    have h1 : 0 ≤ (x - y) * (x - y) := mul_self_nonneg _
    have h2 : 0 ≤ sumSqDiff a b := sumSqDiff_nonneg a b
    have hsum : sumSqDiff (x :: a) (y :: b) = (x - y) * (x - y) + sumSqDiff a b := by
      simp [sumSqDiff]
    rw [hsum]
    rw [add_eq_zero_iff_of_nonneg h1 h2, mul_self_eq_zero, sub_eq_zero,
      sumSqDiff_eq_zero_iff a b hlen]
    constructor
    · rintro ⟨rfl, rfl⟩; rfl
    · intro hc; cases hc; exact ⟨rfl, rfl⟩

theorem pySlice_natCast {α : Type} (n : ℕ) (l : List α) :
    pySlice (n : ℤ) l = l.take n := by
  simp [pySlice]

theorem pySlice_sublist {α : Type} (n : ℤ) (l : List α) :
    (pySlice n l).Sublist l := by
  unfold pySlice
  split
  · exact List.take_sublist _ _
  · exact List.take_sublist _ _

theorem get_word_mem (t : WordVectors) (D : Nat) (hwf : WellFormed t D)
    {p : String × Nat} (hp : p ∈ t.wv_dict) :
    t.wv_arr.get? p.2 = some (t.wv_arr.getD p.2 []) ∧
      get_word t p.1 = .ok (t.wv_arr.getD p.2 []) ∧
      (t.wv_arr.getD p.2 []).length = D := by
  obtain ⟨hnd, hbound, hdim⟩ := hwf
  have hmem : (p.1, p.2) ∈ t.wv_dict := by cases p; exact hp
  have hlk : List.lookup p.1 t.wv_dict = some p.2 :=
    lookup_eq_some_of_nodup _ hnd hmem
  have hb : p.2 < t.wv_arr.length := hbound p hp
  have hgd : t.wv_arr.getD p.2 [] = t.wv_arr.get ⟨p.2, hb⟩ := by
    rw [List.getD_eq_getElem _ [] hb]
    rfl
  have hget : t.wv_arr.get? p.2 = some (t.wv_arr.getD p.2 []) := by
    rw [hgd]; exact List.get?_eq_get hb
  refine ⟨hget, ?_, ?_⟩
  · simp only [get_word, hlk, hget]
  · rw [hgd]
    exact hdim _ (List.get_mem _ _ hb)

theorem all_dists_eq (t : WordVectors) (D : Nat) (d : List ℤ)
    (hwf : WellFormed t D) (hd : d.length = D) :
    all_dists t d = .ok (t.wv_dict.map (scanEntry t d)) := by
  unfold all_dists
  apply mapM_ok
  intro p hp
  obtain ⟨-, hgw, hlen⟩ := get_word_mem t D hwf hp
  rw [hgw]
  show (distSq d (t.wv_arr.getD p.2 [])).bind _ = _
  rw [distSq, if_pos (by rw [hd, hlen])]
  rfl

theorem closest_eq (t : WordVectors) (D : Nat) (d : List ℤ) (n : ℤ)
    (hwf : WellFormed t D) (hd : d.length = D) :
    closest t d n =
      .ok (pySlice n (List.insertionSort distLe (t.wv_dict.map (scanEntry t d)))) := by
  unfold closest
  rw [all_dists_eq t D d hwf hd]
  rfl

theorem analogy_eq (t : WordVectors) (w1 w2 w3 : String) (n : ℤ) (fg : Bool)
    (q : List ℤ) (cw : List (String × ℤ))
    (hq : analogyQuery t w1 w2 w3 = .ok q) (hc : closest t q 10 = .ok cw) :
    analogy t w1 w2 w3 n fg =
      .ok (pySlice n (if fg then
          cw.filter (fun p => !(p.1 == w1 || p.1 == w2 || p.1 == w3))
        else cw)) := by
  unfold analogy
  rw [hq]
  show (closest t q 10).bind _ = _
  rw [hc]
  rfl

theorem analogy_error_of_query_error (t : WordVectors) (w1 w2 w3 : String)
    (n : ℤ) (fg : Bool) (e : PyError)
    (hq : analogyQuery t w1 w2 w3 = .error e) :
    analogy t w1 w2 w3 n fg = .error e := by
  unfold analogy
  rw [hq]
  rfl

theorem filter_orderedInsert (q : ℤ) (a : String × ℤ) :
    ∀ l : List (String × ℤ),
      (List.orderedInsert distLe a l).filter (fun p => p.2 == q) =
        if a.2 = q then a :: l.filter (fun p => p.2 == q)
        else l.filter (fun p => p.2 == q)
  | [] => by
    by_cases h : a.2 = q
    · simp [List.orderedInsert, List.filter, h]
    · simp [List.orderedInsert, List.filter, h, beq_false_of_ne h]
  | b :: l => by
    by_cases hab : distLe a b
    · rw [List.orderedInsert, if_pos hab, List.filter_cons]
      by_cases h : a.2 = q
      · simp [h]
      · simp [h]
    · rw [List.orderedInsert, if_neg hab, List.filter_cons,
        filter_orderedInsert q a l]
      have hba : b.2 < a.2 := lt_of_not_le hab
      by_cases h : a.2 = q
      · have hbq : ¬ b.2 = q := by
          intro hc
          rw [← h] at hc
          exact absurd hc (ne_of_lt hba)
        simp [h, hbq, List.filter_cons]
      · by_cases hbq : b.2 = q
        · simp [h, hbq, List.filter_cons]
        · simp [h, hbq, List.filter_cons]

theorem filter_insertionSort (q : ℤ) :
    ∀ l : List (String × ℤ),
      (List.insertionSort distLe l).filter (fun p => p.2 == q) =
        l.filter (fun p => p.2 == q)
  | [] => rfl
  | a :: l => by
    rw [List.insertionSort, filter_orderedInsert q a, filter_insertionSort q l,
      List.filter_cons]
    by_cases h : a.2 = q
    · simp [h]
    · simp [h]

theorem orderedInsert_zero_head (w : String) :
    ∀ ys : List (String × ℤ), (∀ p ∈ ys, 0 ≤ p.2) →
      List.orderedInsert distLe (w, 0) ys = (w, 0) :: ys
  | [], _ => rfl
  | b :: ys, h => by
    rw [List.orderedInsert, if_pos]
    exact h b (List.mem_cons_self b ys)

theorem insertionSort_first_zero (w : String) :
    ∀ l1 l2 : List (String × ℤ), (∀ p ∈ l1, 0 < p.2) → (∀ p ∈ l2, 0 ≤ p.2) →
      ∃ rest, List.insertionSort distLe (l1 ++ (w, 0) :: l2) = (w, 0) :: rest
  | [], l2, _, h2 => by
    rw [List.nil_append, List.insertionSort]
    refine ⟨List.insertionSort distLe l2, ?_⟩
    apply orderedInsert_zero_head
    intro p hp
    exact h2 p ((List.perm_insertionSort distLe l2).mem_iff.mp hp)
  | b :: l1, l2, h1, h2 => by
    obtain ⟨rest, hrest⟩ := insertionSort_first_zero w l1 l2
      (fun p hp => h1 p (List.mem_cons_of_mem b hp)) h2
    rw [List.cons_append, List.insertionSort, hrest, List.orderedInsert, if_neg]
    · exact ⟨List.orderedInsert distLe b rest, rfl⟩
    · exact not_le_of_lt (h1 b (List.mem_cons_self b l1))

theorem length_le_of_fst_nodup_subset (l : List (String × ℤ)) (ws : List String)
    (hnd : (l.map Prod.fst).Nodup) (h : ∀ p ∈ l, p.1 ∈ ws) :
    l.length ≤ ws.length := by
  have hsub : (l.map Prod.fst) ⊆ ws := by
    intro x hx
    obtain ⟨p, hp, rfl⟩ := List.mem_map.mp hx
    exact h p hp
  have hlen := (List.subperm_of_subset hnd hsub).length_le
  simpa using hlen

theorem filter_given_length (l : List (String × ℤ)) (w1 w2 w3 : String)
    (hnd : (l.map Prod.fst).Nodup) :
    l.length ≤ (l.filter (fun p => !(p.1 == w1 || p.1 == w2 || p.1 == w3))).length + 3 := by
  have hsplit :=
    List.length_eq_length_filter_add (l := l)
      (fun p => !(p.1 == w1 || p.1 == w2 || p.1 == w3))
  have hnot :
      (l.filter (fun p => !(!(p.1 == w1 || p.1 == w2 || p.1 == w3)))).length ≤ 3 := by
    have hfst :
        ((l.filter (fun p => !(!(p.1 == w1 || p.1 == w2 || p.1 == w3)))).map
          Prod.fst).Nodup :=
      hnd.sublist (List.Sublist.map Prod.fst (List.filter_sublist l))
    refine length_le_of_fst_nodup_subset _ [w1, w2, w3] hfst ?_
    intro p hp
    have hcond := (List.mem_filter.mp hp).2
    have : (p.1 == w1 || p.1 == w2 || p.1 == w3) = true := by
      by_contra hcon
      rw [Bool.not_eq_true] at hcon
      rw [hcon] at hcond
      simp at hcond
    rcases Bool.or_eq_true_iff.mp this with h12 | h3
    · rcases Bool.or_eq_true_iff.mp h12 with h1 | h2
      · simp [beq_iff_eq.mp h1]
      · simp [beq_iff_eq.mp h2]
    · simp [beq_iff_eq.mp h3]
  calc l.length
      = (l.filter (fun p => !(p.1 == w1 || p.1 == w2 || p.1 == w3))).length +
          (l.filter (fun p => !(!(p.1 == w1 || p.1 == w2 || p.1 == w3)))).length := hsplit
    _ ≤ (l.filter (fun p => !(p.1 == w1 || p.1 == w2 || p.1 == w3))).length + 3 :=
        Nat.add_le_add_left hnot _

theorem scan_fst (t : WordVectors) (d : List ℤ) :
    (t.wv_dict.map (scanEntry t d)).map Prod.fst = t.wv_dict.map Prod.fst := by
  rw [List.map_map]
  rfl

/-- C10: on a well-formed table and a query of the table's dimensionality,
the full-vocabulary scan inside `closest` never fails on its internal
lookups (every iterated word is a dictionary key whose index is in bounds
of `wv_arr`), so `all_dists` succeeds, and each table word appears exactly
once among the computed (word, distance) pairs. -/
theorem all_dists_total (t : WordVectors) (D : Nat) (d : List ℤ)
    (hwf : WellFormed t D) (hd : d.length = D) :
    ∃ L, all_dists t d = .ok L ∧
      L.map Prod.fst = t.wv_dict.map Prod.fst ∧ (L.map Prod.fst).Nodup := by
  refine ⟨t.wv_dict.map (scanEntry t d), all_dists_eq t D d hwf hd,
    scan_fst t d, ?_⟩
  rw [scan_fst t d]
  exact hwf.1

/-- C2: on a well-formed table, `closest` computes the Euclidean distance
`sqrt (sum_i (q_i - v_i)^2)` (`torchDist`) to the stored vector of every
table word, sorts all (word, distance) pairs ascending by distance — ties
broken by the table's original iteration order, expressed by the stable
sort `S`: a permutation of the scan `L` that is sorted and preserves the
original relative order inside every class of equal distances — truncates
to the first `n`, and the returned sequence has length
`min n (table.size)`. -/
theorem closest_spec (t : WordVectors) (D : Nat) (d : List ℤ) (n : ℕ)
    (hwf : WellFormed t D) (hd : d.length = D) :
    ∃ L S : List (String × ℤ),
      all_dists t d = .ok L ∧
      L.map Prod.fst = t.wv_dict.map Prod.fst ∧
      (∀ p ∈ L, ∃ v, get_word t p.1 = .ok v ∧
        Real.sqrt ((p.2 : ℤ) : ℝ) = torchDist d v) ∧
      S.Perm L ∧
      S.Sorted distLe ∧
      (∀ q : ℤ, S.filter (fun p => p.2 == q) = L.filter (fun p => p.2 == q)) ∧
      closest t d (n : ℤ) = .ok (S.take n) ∧
      (S.take n).Sorted
        (fun a b => Real.sqrt ((a.2 : ℤ) : ℝ) ≤ Real.sqrt ((b.2 : ℤ) : ℝ)) ∧
      (S.take n).length = min n t.size := by
  refine ⟨t.wv_dict.map (scanEntry t d),
    List.insertionSort distLe (t.wv_dict.map (scanEntry t d)),
    all_dists_eq t D d hwf hd, scan_fst t d, ?_, List.perm_insertionSort distLe _,
    List.sorted_insertionSort distLe _, fun q => filter_insertionSort q _, ?_, ?_, ?_⟩
  · intro p hp
    obtain ⟨p0, hp0, rfl⟩ := List.mem_map.mp hp
    obtain ⟨-, hgw, -⟩ := get_word_mem t D hwf hp0
    exact ⟨t.wv_arr.getD p0.2 [], hgw, rfl⟩
  · rw [closest_eq t D d (n : ℤ) hwf hd, pySlice_natCast]
  · have hs : (List.insertionSort distLe (t.wv_dict.map (scanEntry t d))).Sorted distLe :=
      List.sorted_insertionSort distLe _
    have htake := hs.sublist (List.take_sublist n _)
    exact htake.imp fun hab => Real.sqrt_le_sqrt (by exact_mod_cast hab)
  · rw [List.length_take, List.length_insertionSort, List.length_map]
    rfl

theorem except_bind_ok {α β : Type} (a : α) (f : α → Except PyError β) :
    (Except.ok a >>= f) = f a := rfl

theorem except_bind_error {α β : Type} (e : PyError) (f : α → Except PyError β) :
    ((Except.error e : Except PyError α) >>= f) = .error e := rfl

/-- C3 (amended): `nearestTo(q, table, 0)` returns the empty sequence, and a
query of mismatched dimensionality fails with the dimension-mismatch error
as soon as the table is nonempty; but for negative `n` the result is not
empty in general: Python slicing makes `closest` return the first
`size - |n|` entries. -/
theorem closest_nonpos_spec (t : WordVectors) (D : Nat) (q : List ℤ) (n : ℤ)
    (hwf : WellFormed t D) :
    (q.length = D → closest t q 0 = .ok [] ∧
      (n < 0 → ∃ r, closest t q n = .ok r ∧
        r.length = t.size - (-n).toNat)) ∧
    (q.length ≠ D → 1 ≤ t.size → closest t q n = .error .dimMismatch) := by
  constructor
  · intro hq
    constructor
    · rw [closest_eq t D q 0 hwf hq]
      rfl
    · intro hn
      refine ⟨_, closest_eq t D q n hwf hq, ?_⟩
      rw [pySlice, if_neg (not_le_of_lt hn), List.length_take,
        List.length_insertionSort, List.length_map]
      exact min_eq_left (Nat.sub_le _ _)
  · intro hq hsize
    have herr : all_dists t q = .error .dimMismatch := by
      cases hdict : t.wv_dict with
      | nil =>
        rw [WordVectors.size, hdict] at hsize
        simp at hsize
      | cons p l =>
        have hp : p ∈ t.wv_dict := by rw [hdict]; exact List.mem_cons_self p l
        obtain ⟨-, hgw, hlen⟩ := get_word_mem t D hwf hp
        unfold all_dists
        rw [hdict]
        apply mapM_error
        rw [hgw]
        show (distSq q (t.wv_arr.getD p.2 [])).bind _ = _
        rw [distSq, if_neg (by rw [hlen]; exact hq)]
        rfl
    unfold closest
    rw [herr]
    rfl

/-- C3 counterexample: on the well-formed four-word table `tblA`, the call
`closest tblA [0] (-1)` has negative `n` yet returns three entries, not the
empty sequence the claim requires for every `n ≤ 0`. -/
theorem closest_nonpos_cex :
    WellFormed tblA 1 ∧
      closest tblA [0] (-1) = .ok [("a", 0), ("b", 1), ("c", 4)] ∧
      closest tblA [0] (-1) ≠ .ok [] := by decide

/-- C4 (amended): for a word `w` of a well-formed table such that no word
listed *earlier* in the dictionary's iteration order stores the same
vector, `closest (lookup w) 1` returns exactly `[(w, 0)]`: the word itself
at squared distance zero (so its Euclidean distance is zero as well).  The
counterexample `closest_self_cex` shows the earlier-duplicate condition is
necessary. -/
theorem closest_self_spec (t : WordVectors) (D : Nat) (w : String) (i : Nat)
    (v : List ℤ) (l1 l2 : List (String × Nat))
    (hwf : WellFormed t D)
    (hsplit : t.wv_dict = l1 ++ (w, i) :: l2)
    (hv : t.wv_arr.get? i = some v)
    (hdiff : ∀ p ∈ l1, t.wv_arr.getD p.2 [] ≠ v) :
    get_word t w = .ok v ∧ closest t v 1 = .ok [(w, 0)] := by
  have hmem : ((w, i) : String × Nat) ∈ t.wv_dict := by
    rw [hsplit]
    exact List.mem_append_right l1 (List.mem_cons_self _ l2)
  obtain ⟨hget, hgw, hlen⟩ := get_word_mem t D hwf hmem
  have hgd : t.wv_arr.getD i [] = v := by
    rw [hget] at hv
    exact Option.some.inj hv
  have hvD : v.length = D := by rw [← hgd]; exact hlen
  have hgwv : get_word t w = .ok v := by rw [hgw]; rw [hgd]
  refine ⟨hgwv, ?_⟩
  rw [closest_eq t D v 1 hwf hvD, hsplit, List.map_append, List.map_cons]
  have hscan : scanEntry t v (w, i) = (w, 0) := by
    show (w, sumSqDiff v (t.wv_arr.getD i [])) = (w, 0)
    rw [hgd, sumSqDiff_self]
  rw [hscan]
  have h1 : ∀ p ∈ l1.map (scanEntry t v), 0 < p.2 := by
    intro p hp
    obtain ⟨p0, hp0, rfl⟩ := List.mem_map.mp hp
    have hp0d : p0 ∈ t.wv_dict := by
      rw [hsplit]; exact List.mem_append_left _ hp0
    obtain ⟨-, -, hl⟩ := get_word_mem t D hwf hp0d
    have hne : t.wv_arr.getD p0.2 [] ≠ v := hdiff p0 hp0
    have h0 : sumSqDiff v (t.wv_arr.getD p0.2 []) ≠ 0 := by
      intro hc
      exact hne ((sumSqDiff_eq_zero_iff v _ (hvD.trans hl.symm)).mp hc).symm
    exact lt_of_le_of_ne (sumSqDiff_nonneg _ _) (Ne.symm h0)
  have h2 : ∀ p ∈ l2.map (scanEntry t v), 0 ≤ p.2 := by
    intro p hp
    obtain ⟨p0, hp0, rfl⟩ := List.mem_map.mp hp
    exact sumSqDiff_nonneg _ _
  obtain ⟨rest, hrest⟩ := insertionSort_first_zero w (l1.map (scanEntry t v))
    (l2.map (scanEntry t v)) h1 h2
  rw [hrest]
  rfl

/-- C4 counterexample: in the well-formed table `tblDup` the two distinct
words "a" and "b" store the same vector `[0]`; `closest (lookup "b") 1`
returns `[("a", 0)]` — the tie at distance zero is broken by iteration
order — not `[("b", 0)]` as the claim requires for every table word. -/
theorem closest_self_cex :
    WellFormed tblDup 1 ∧ ("b", 1) ∈ tblDup.wv_dict ∧
      get_word tblDup "b" = .ok [0] ∧
      closest tblDup [0] 1 = .ok [("a", 0)] ∧
      closest tblDup [0] 1 ≠ .ok [("b", 0)] := by decide

theorem analogy_ok_elim (t : WordVectors) (w1 w2 w3 : String) (n : ℤ) (fg : Bool)
    (r : List (String × ℤ)) (h : analogy t w1 w2 w3 n fg = .ok r) :
    ∃ q cw, analogyQuery t w1 w2 w3 = .ok q ∧ closest t q 10 = .ok cw ∧
      r = pySlice n (if fg then
          cw.filter (fun p => !(p.1 == w1 || p.1 == w2 || p.1 == w3))
        else cw) := by
  unfold analogy at h
  cases hq : analogyQuery t w1 w2 w3 with
  | error e =>
    rw [hq, except_bind_error] at h
    exact Except.noConfusion h
  | ok q =>
    rw [hq, except_bind_ok] at h
    cases hc : closest t q 10 with
    | error e =>
      rw [hc, except_bind_error] at h
      exact Except.noConfusion h
    | ok cw =>
      rw [hc, except_bind_ok] at h
      exact ⟨q, cw, rfl, hc, (Except.ok.inj h).symm⟩

/-- C5: whenever `analogy(w1, w2, w3, n, filterGiven = true)` succeeds, no
entry of the returned sequence carries a word equal to `w1`, `w2` or `w3`. -/
theorem analogy_never_given (t : WordVectors) (w1 w2 w3 : String) (n : ℤ)
    (r : List (String × ℤ)) (h : analogy t w1 w2 w3 n true = .ok r) :
    ∀ p ∈ r, p.1 ≠ w1 ∧ p.1 ≠ w2 ∧ p.1 ≠ w3 := by
  intro p hp
  obtain ⟨q, cw, -, -, rfl⟩ := analogy_ok_elim t w1 w2 w3 n true r h
  have hmem := (pySlice_sublist n _).mem hp
  have hcond := (List.mem_filter.mp hmem).2
  have hsplit : ¬(p.1 = w1 ∨ p.1 = w2 ∨ p.1 = w3) := by
    intro hc
    have : (p.1 == w1 || p.1 == w2 || p.1 == w3) = true := by
      rcases hc with h1 | h2 | h3
      · simp [h1]
      · simp [h2]
      · simp [h3]
    rw [this] at hcond
    simp at hcond
  exact ⟨fun h1 => hsplit (Or.inl h1), fun h2 => hsplit (Or.inr (Or.inl h2)),
    fun h3 => hsplit (Or.inr (Or.inr h3))⟩

/-- C5 witness: on `tblA`, `analogy "a" "b" "c" 1 true` succeeds with the
single entry `("d", 0)`, whose word differs from all three given words. -/
theorem analogy_never_given_witness :
    ("d", (0 : ℤ)).1 ≠ "a" ∧ ("d", (0 : ℤ)).1 ≠ "b" ∧ ("d", (0 : ℤ)).1 ≠ "c" :=
  analogy_never_given tblA "a" "b" "c" 1 [("d", 0)] (by decide) ("d", 0) (by decide)

theorem analogyQuery_ok (t : WordVectors) (w1 w2 w3 : String)
    (v1 v2 v3 : List ℤ)
    (h1 : get_word t w1 = .ok v1) (h2 : get_word t w2 = .ok v2)
    (h3 : get_word t w3 = .ok v3)
    (e12 : v1.length = v2.length) (e23 : v2.length = v3.length) :
    analogyQuery t w1 w2 w3 =
      .ok (List.zipWith (fun x y => x + y)
        (List.zipWith (fun x y => x - y) v2 v1) v3) := by
  unfold analogyQuery
  rw [h2, except_bind_ok, h1, except_bind_ok, vecSub, if_pos e12.symm,
    except_bind_ok, h3, except_bind_ok, vecAdd,
    if_pos (by rw [List.length_zipWith, ← e12, min_self]; exact e12.trans e23)]

/-- C6: the query vector `analogy` submits to the nearest-neighbor search is
`lookup(w2) - lookup(w1) + lookup(w3)`, computed elementwise. -/
theorem analogyQuery_spec (t : WordVectors) (w1 w2 w3 : String)
    (v1 v2 v3 : List ℤ)
    (h1 : get_word t w1 = .ok v1) (h2 : get_word t w2 = .ok v2)
    (h3 : get_word t w3 = .ok v3)
    (e12 : v1.length = v2.length) (e23 : v2.length = v3.length) :
    analogyQuery t w1 w2 w3 =
      .ok (List.zipWith (fun x y => x + y)
        (List.zipWith (fun x y => x - y) v2 v1) v3) :=
  analogyQuery_ok t w1 w2 w3 v1 v2 v3 h1 h2 h3 e12 e23

/-- C6 witness: on `tblA`, the query of `analogy "a" "b" "c"` is
`[1] - [0] + [2] = [3]` componentwise. -/
theorem analogyQuery_spec_witness :
    analogyQuery tblA "a" "b" "c" =
      .ok (List.zipWith (fun x y => x + y)
        (List.zipWith (fun x y => x - y) [1] [0]) [2]) :=
  analogyQuery_spec tblA "a" "b" "c" [0] [1] [2] (by decide) (by decide)
    (by decide) (by decide) (by decide)

theorem get_word_absent (t : WordVectors) (w : String)
    (hw : w ∉ t.wv_dict.map Prod.fst) : get_word t w = .error (.keyError w) := by
  unfold get_word
  rw [lookup_eq_none_of_not_mem t.wv_dict hw]

/-- C7: on a well-formed table, `lookup` (`get_word`) returns the stored
vector exactly when the word is a dictionary key under exact string match,
fails with the `KeyError` carrying that word exactly when it is absent, and
`analogy` fails with the `KeyError` of one of its three (absent) input
words whenever any of them is missing. -/
theorem lookup_spec (t : WordVectors) (D : Nat) (w w1 w2 w3 : String)
    (n : ℤ) (fg : Bool) (hwf : WellFormed t D) :
    (∀ i, (w, i) ∈ t.wv_dict →
      ∃ v, t.wv_arr.get? i = some v ∧ get_word t w = .ok v) ∧
    (w ∉ t.wv_dict.map Prod.fst → get_word t w = .error (.keyError w)) ∧
    ((w1 ∉ t.wv_dict.map Prod.fst ∨ w2 ∉ t.wv_dict.map Prod.fst ∨
        w3 ∉ t.wv_dict.map Prod.fst) →
      ∃ w', (w' = w1 ∨ w' = w2 ∨ w' = w3) ∧ w' ∉ t.wv_dict.map Prod.fst ∧
        analogy t w1 w2 w3 n fg = .error (.keyError w')) := by
  refine ⟨?_, fun hw => get_word_absent t w hw, ?_⟩
  · intro i hi
    obtain ⟨hget, hgw, -⟩ := get_word_mem t D hwf hi
    exact ⟨_, hget, hgw⟩
  · intro habs
    by_cases h2 : w2 ∈ t.wv_dict.map Prod.fst
    · obtain ⟨p2, hp2, hfst2⟩ := List.mem_map.mp h2
      obtain ⟨-, hgw2, hlen2⟩ := get_word_mem t D hwf hp2
      rw [hfst2] at hgw2
      by_cases h1 : w1 ∈ t.wv_dict.map Prod.fst
      · obtain ⟨p1, hp1, hfst1⟩ := List.mem_map.mp h1
        obtain ⟨-, hgw1, hlen1⟩ := get_word_mem t D hwf hp1
        rw [hfst1] at hgw1
        have h3 : w3 ∉ t.wv_dict.map Prod.fst := by
          rcases habs with ha | hb | hc
          · exact absurd h1 ha
          · exact absurd h2 hb
          · exact hc
        refine ⟨w3, Or.inr (Or.inr rfl), h3, ?_⟩
        apply analogy_error_of_query_error
        unfold analogyQuery
        rw [hgw2, except_bind_ok, hgw1, except_bind_ok, vecSub,
          if_pos (hlen2.trans hlen1.symm), except_bind_ok,
          get_word_absent t w3 h3, except_bind_error]
      · refine ⟨w1, Or.inl rfl, h1, ?_⟩
        apply analogy_error_of_query_error
        unfold analogyQuery
        rw [hgw2, except_bind_ok, get_word_absent t w1 h1, except_bind_error]
    · refine ⟨w2, Or.inr (Or.inl rfl), h2, ?_⟩
      apply analogy_error_of_query_error
      unfold analogyQuery
      rw [get_word_absent t w2 h2, except_bind_error]

/-- C7 witness: on `tblA`, looking up the absent word "z" fails with the
`KeyError` for "z". -/
theorem lookup_spec_witness :
    get_word tblA "z" = .error (.keyError "z") :=
  (lookup_spec tblA 1 "z" "a" "b" "c" 5 true (by decide)).2.1 (by decide)

/-- C8: `closest` and `analogy` are deterministic: two calls with equal
tables and equal inputs produce equal results. -/
theorem ops_deterministic (t t' : WordVectors) (d d' : List ℤ) (n n' : ℤ)
    (w1 w1' w2 w2' w3 w3' : String) (fg fg' : Bool)
    (ht : t = t') (hd : d = d') (hn : n = n') (h1 : w1 = w1') (h2 : w2 = w2')
    (h3 : w3 = w3') (hfg : fg = fg') :
    closest t d n = closest t' d' n' ∧
      analogy t w1 w2 w3 n fg = analogy t' w1' w2' w3' n' fg' := by
  subst ht hd hn h1 h2 h3 hfg
  exact ⟨rfl, rfl⟩

/-- C8 witness: the determinism theorem instantiated on `tblA`. -/
theorem ops_deterministic_witness :
    closest tblA [0] 2 = closest tblA [0] 2 ∧
      analogy tblA "a" "b" "c" 1 true = analogy tblA "a" "b" "c" 1 true :=
  ops_deterministic tblA tblA [0] [0] 2 2 "a" "a" "b" "b" "c" "c" true true
    rfl rfl rfl rfl rfl rfl rfl

/-- C9: in the state-passing model of the notebook's globals, `get_word`,
`closest` and `analogy` leave the table — its dictionary and its vector
array — unchanged, and their results are the pure functions of
(table, inputs) defined above. -/
theorem ops_pure (st : WordVectors) (w w1 w2 w3 : String) (d : List ℤ)
    (n : ℤ) (fg : Bool) :
    (runGetWord st w).2 = st ∧ (runClosest st d n).2 = st ∧
      (runAnalogy st w1 w2 w3 n fg).2 = st ∧
      (runGetWord st w).1 = get_word st w ∧
      (runClosest st d n).1 = closest st d n ∧
      (runAnalogy st w1 w2 w3 n fg).1 = analogy st w1 w2 w3 n fg ∧
      (runAnalogy st w1 w2 w3 n fg).2.wv_dict = st.wv_dict ∧
      (runAnalogy st w1 w2 w3 n fg).2.wv_arr = st.wv_arr :=
  ⟨rfl, rfl, rfl, rfl, rfl, rfl, rfl, rfl⟩

theorem pySlice_ten {α : Type} (l : List α) : pySlice 10 l = l.take 10 := by
  rw [pySlice, if_pos (by norm_num)]
  rfl

/-- C1 (amended): `analogy` always requests `closest`'s default of 10
candidates, independent of the requested `n` (not `n + 3` of them).  With
`filterGiven = true` it removes the candidates equal to `w1`, `w2`, `w3`
from those `min 10 size` candidates and truncates to `n`, returning exactly
`n` entries whenever `n ≤ 7` and the table has at least `n + 3` words; with
`filterGiven = false` it returns the plain `n` nearest neighbors of the
query — it agrees with `closest` at `n` — for `n ≤ 10`. -/
theorem analogy_spec (t : WordVectors) (D : Nat) (w1 w2 w3 : String) (n : ℕ)
    (hwf : WellFormed t D)
    (h1 : w1 ∈ t.wv_dict.map Prod.fst) (h2 : w2 ∈ t.wv_dict.map Prod.fst)
    (h3 : w3 ∈ t.wv_dict.map Prod.fst) :
    ∃ q, analogyQuery t w1 w2 w3 = .ok q ∧
      (n ≤ 10 → analogy t w1 w2 w3 (n : ℤ) false = closest t q (n : ℤ)) ∧
      (n ≤ 7 → n + 3 ≤ t.size →
        ∃ r, analogy t w1 w2 w3 (n : ℤ) true = .ok r ∧ r.length = n) := by
  obtain ⟨p1, hp1, hfst1⟩ := List.mem_map.mp h1
  obtain ⟨p2, hp2, hfst2⟩ := List.mem_map.mp h2
  obtain ⟨p3, hp3, hfst3⟩ := List.mem_map.mp h3
  obtain ⟨-, hgw1, hlen1⟩ := get_word_mem t D hwf hp1
  obtain ⟨-, hgw2, hlen2⟩ := get_word_mem t D hwf hp2
  obtain ⟨-, hgw3, hlen3⟩ := get_word_mem t D hwf hp3
  rw [hfst1] at hgw1
  rw [hfst2] at hgw2
  rw [hfst3] at hgw3
  set v1 := t.wv_arr.getD p1.2 [] with hv1
  set v2 := t.wv_arr.getD p2.2 [] with hv2
  set v3 := t.wv_arr.getD p3.2 [] with hv3
  have hq := analogyQuery_ok t w1 w2 w3 v1 v2 v3 hgw1 hgw2 hgw3
    (hlen1.trans hlen2.symm) (hlen2.trans hlen3.symm)
  set q := List.zipWith (fun x y => x + y)
    (List.zipWith (fun x y => x - y) v2 v1) v3 with hqdef
  have hqlen : q.length = D := by
    rw [hqdef, List.length_zipWith, List.length_zipWith, hlen1, hlen2, hlen3,
      min_self, min_self]
  set S := List.insertionSort distLe (t.wv_dict.map (scanEntry t q)) with hS
  have hclosest10 : closest t q 10 = .ok (S.take 10) := by
    rw [closest_eq t D q 10 hwf hqlen, pySlice_ten, hS]
  have hSlen : S.length = t.size := by
    rw [hS, List.length_insertionSort, List.length_map]
    rfl
  have hSnodup : (S.map Prod.fst).Nodup := by
    have hperm : (S.map Prod.fst).Perm ((t.wv_dict.map (scanEntry t q)).map Prod.fst) :=
      (List.perm_insertionSort distLe _).map Prod.fst
    have : ((t.wv_dict.map (scanEntry t q)).map Prod.fst).Nodup := by
      rw [scan_fst]; exact hwf.1
    exact hperm.nodup_iff.mpr this
  have hcnodup : ((S.take 10).map Prod.fst).Nodup := by
    rw [List.map_take]
    exact hSnodup.sublist (List.take_sublist 10 _)
  have hclen : (S.take 10).length = min 10 t.size := by
    rw [List.length_take, hSlen]
  refine ⟨q, hq, ?_, ?_⟩
  · intro hn10
    rw [analogy_eq t w1 w2 w3 (n : ℤ) false q (S.take 10) hq hclosest10,
      closest_eq t D q (n : ℤ) hwf hqlen, pySlice_natCast, pySlice_natCast]
    rw [if_neg (by simp), List.take_take, min_eq_left hn10, hS]
  · intro hn hsize
    have hc_ge : n + 3 ≤ (S.take 10).length := by
      rw [hclen]
      rcases le_total t.size 10 with hle | hle
      · rw [min_eq_right hle]; exact hsize
      · rw [min_eq_left hle]; omega
    have hflen : n ≤ ((S.take 10).filter
        (fun p => !(p.1 == w1 || p.1 == w2 || p.1 == w3))).length := by
      have := filter_given_length (S.take 10) w1 w2 w3 hcnodup
      omega
    refine ⟨_, analogy_eq t w1 w2 w3 (n : ℤ) true q (S.take 10) hq hclosest10, ?_⟩
    rw [if_pos rfl, pySlice_natCast, List.length_take]
    exact min_eq_left hflen

/-- C1 counterexample: `tblK` is well-formed with 11 = 8 + 3 words and all
of "a", "b", "c" present, yet `analogy "a" "b" "c" 8 true` returns 7 ≠ 8
entries: the code fetches only `closest`'s default of 10 candidates, not
n + 3 = 11, and filtering the three given words leaves 7. -/
theorem analogy_spec_cex :
    WellFormed tblK 1 ∧ tblK.size = 8 + 3 ∧
      "a" ∈ tblK.wv_dict.map Prod.fst ∧ "b" ∈ tblK.wv_dict.map Prod.fst ∧
      "c" ∈ tblK.wv_dict.map Prod.fst ∧
      analogy tblK "a" "b" "c" 8 true =
        .ok [("d", 0), ("e", 1), ("f", 4), ("g", 9), ("h", 16), ("i", 25),
          ("j", 36)] ∧
      Except.map List.length (analogy tblK "a" "b" "c" 8 true) = .ok 7 := by
  decide

/-- C1 witness: the amended theorem instantiated on `tblA` with n = 1,
where the query is `[1] - [0] + [2] = [3]`, with both inner implications
discharged at the concrete input. -/
theorem analogy_spec_witness :
    analogy tblA "a" "b" "c" ((1 : ℕ) : ℤ) false = closest tblA [3] ((1 : ℕ) : ℤ) ∧
      ∃ r, analogy tblA "a" "b" "c" ((1 : ℕ) : ℤ) true = .ok r ∧ r.length = 1 := by
  obtain ⟨q, hq, hfalse, htrue⟩ :=
    analogy_spec tblA 1 "a" "b" "c" 1 (by decide) (by decide) (by decide) (by decide)
  have hq3 : analogyQuery tblA "a" "b" "c" = .ok [3] := by decide
  rw [hq3] at hq
  cases Except.ok.inj hq
  exact ⟨hfalse (by decide), htrue (by decide) (by decide)⟩

/-- C2 witness: the nearest-neighbor specification instantiated on `tblA`
with query `[0]` and n = 2. -/
theorem closest_spec_witness :
    ∃ L S : List (String × ℤ),
      all_dists tblA [0] = .ok L ∧
      L.map Prod.fst = tblA.wv_dict.map Prod.fst ∧
      (∀ p ∈ L, ∃ v, get_word tblA p.1 = .ok v ∧
        Real.sqrt ((p.2 : ℤ) : ℝ) = torchDist [0] v) ∧
      S.Perm L ∧
      S.Sorted distLe ∧
      (∀ q : ℤ, S.filter (fun p => p.2 == q) = L.filter (fun p => p.2 == q)) ∧
      closest tblA [0] ((2 : ℕ) : ℤ) = .ok (S.take 2) ∧
      (S.take 2).Sorted
        (fun a b => Real.sqrt ((a.2 : ℤ) : ℝ) ≤ Real.sqrt ((b.2 : ℤ) : ℝ)) ∧
      (S.take 2).length = min 2 tblA.size :=
  closest_spec tblA 1 [0] 2 (by decide) (by decide)

/-- C3 witness: the amended boundary behaviour on `tblA`: n = 0 yields the
empty sequence, n = -1 yields `size - 1` entries, and a two-component query
against the one-dimensional table fails with the dimension mismatch. -/
theorem closest_nonpos_witness :
    closest tblA [0] 0 = .ok [] ∧
      (∃ r, closest tblA [0] (-1) = .ok r ∧
        r.length = tblA.size - (-(-1 : ℤ)).toNat) ∧
      closest tblA [0, 0] 5 = .error .dimMismatch :=
  ⟨((closest_nonpos_spec tblA 1 [0] (-1) (by decide)).1 (by decide)).1,
    ((closest_nonpos_spec tblA 1 [0] (-1) (by decide)).1 (by decide)).2 (by decide),
    (closest_nonpos_spec tblA 1 [0, 0] 5 (by decide)).2 (by decide) (by decide)⟩

/-- C4 witness: on `tblA`, the word "b" (all vectors distinct) is its own
nearest neighbor at distance zero. -/
theorem closest_self_witness :
    get_word tblA "b" = .ok [1] ∧ closest tblA [1] 1 = .ok [("b", 0)] :=
  closest_self_spec tblA 1 "b" 1 [1] [("a", 0)] [("c", 2), ("d", 3)]
    (by decide) (by decide) (by decide) (by decide)

/-- C10 witness: the scan of `tblA` for query `[0]` succeeds and lists each
of the four words exactly once. -/
theorem all_dists_total_witness :
    ∃ L, all_dists tblA [0] = .ok L ∧
      L.map Prod.fst = tblA.wv_dict.map Prod.fst ∧ (L.map Prod.fst).Nodup :=
  all_dists_total tblA 1 [0] (by decide) (by decide)

end Glove
